import Mathlib

/-
Shallow embedding of the queue-tree scheduling core of libfactory
(src/libfactory/queue.py) and verification of its specification claims.

Conventions of the embedding:
  * Python ints are modelled as Lean `Int`; Python floor division `/`
    (Python 2 semantics) is `Int.fdiv`.
  * The external batch-plugin state (`MockBatchPluginImpl.sites`, a dict
    from label to `MockSite`) is modelled as an association list `Sites`;
    dict lookup that may raise `KeyError` becomes `Option`.
  * Methods that may raise a Python exception return `Option`: `none`
    models an uncaught exception escaping the call, `some` a normal return.
  * A Python method without a `return` statement returns the value `None`;
    where a claim is about that returned value, the value is modelled as
    `Option Int` and the source yields `none`.
-/

/-- MockSite (queue.py lines 386-414): the per-label state kept by the
batch plugin: `max` concurrent jobs, and idle/running/complete counters. -/
structure MockSite where
  max : Int
  idle : Int
  running : Int
  complete : Int
deriving DecidableEq, Repr

/-- MockSite.isFull (queue.py lines 410-414): full iff running >= max. -/
def MockSite.isFull (s : MockSite) : Bool :=
  decide (s.max ≤ s.running)

/-- The batch plugin's `sites` dict, label -> MockSite. -/
abbrev Sites := List (String × MockSite)

/-- Dict lookup `sites[label]`; `none` models `KeyError`. -/
def sitesLookup : Sites → String → Option MockSite
  | [], _ => none
  | (k, v) :: rest, sec => if k = sec then some v else sitesLookup rest sec

/-- In-place mutation of the site object stored under a key
(`site.idle = ...` on the object obtained from the dict). -/
def sitesUpdate : Sites → String → MockSite → Sites
  | [], _, _ => []
  | (k, v) :: rest, sec, s =>
      if k = sec then (k, s) :: rest else (k, v) :: sitesUpdate rest sec s

mutual
/-- The queue tree of queue.py: LBQueue (load balance, lines 82-160),
OFQueue (ordered fill, lines 163-227), SubmitQueue (leaf, lines 230-329).
A leaf carries its section label and its `minfullpending` config value. -/
inductive QTree where
  | LBQueue (label : String) (children : QTreeList)
  | OFQueue (label : String) (children : QTreeList)
  | SubmitQueue (label : String) (minfullpending : Int)
/-- The `children` list of an internal node. -/
inductive QTreeList where
  | nil
  | cons (c : QTree) (rest : QTreeList)
end

/-- Membership in a children list. -/
def QTreeList.Mem : QTree → QTreeList → Prop
  | _, .nil => False
  | c, .cons d rest => c = d ∨ QTreeList.Mem c rest

mutual
/-- isFull of a node. Internal nodes (LBQueue.isFull lines 138-146,
OFQueue.isFull lines 219-227): full iff every child is full.
SubmitQueue.isFull (lines 266-277): look the section up in
`batchplugin.sites`; on `KeyError` return False; otherwise True iff the
site is full and its idle count is at least `minfullpending`. -/
def QTree.isFull : QTree → Sites → Bool
  | .LBQueue _ cs, st => QTreeList.allFull cs st
  | .OFQueue _ cs, st => QTreeList.allFull cs st
  | .SubmitQueue sec mfp, st =>
      match sitesLookup st sec with
      | none => false
      | some site => site.isFull && decide (mfp ≤ site.idle)
/-- The loop `full = True; for ch in children: if not ch.isFull(): full = False`. -/
def QTreeList.allFull : QTreeList → Sites → Bool
  | .nil, _ => true
  | .cons c rest, st => c.isFull st && QTreeList.allFull rest st
end

/-- Length of `openchildren`, the children whose isFull() is False
(queue.py lines 112-116 and 188-191). -/
def QTreeList.numOpen : QTreeList → Sites → Nat
  | .nil, _ => 0
  | .cons c rest, st => (if c.isFull st then 0 else 1) + QTreeList.numOpen rest st

/-- The per-open-child amount computed by LBQueue.enqueue (lines 119-124):
all of n when one child is open, otherwise floor(n/numopen) raised to 1
when the floor is 0. -/
def lbtosub (n : Int) (numopen : Nat) : Int :=
  if numopen = 1 then n
  else if Int.fdiv n numopen = 0 then 1 else Int.fdiv n numopen

mutual
/-- enqueue(n). The result is `none` when the call raises, otherwise
`some (sites, r)` with `r` the Python return value.  No enqueue method in
queue.py has a return statement, so `r` is always `none` (Python None).

SubmitQueue.enqueue (lines 258-264): when not full it runs
`self.batchplugin.submit(n)`; `MockBatchPluginImpl.submit(self, n, label,
mock=None)` requires the `label` argument (the call site has it commented
out), so the call raises TypeError, modelled as `none`.  When full it only
logs and returns None.

LBQueue.enqueue (lines 105-135): for n > 0 with open children, every open
child is given `lbtosub n numopen`; the open-children list is fixed up
front, modelled by guarding on fullness in the initial state `st`.  With
no open children, or n <= 0, it only logs.

OFQueue.enqueue (lines 184-201): for n > 0 with at least one open child,
iterate all children in order and give the entire n to each child that is
not full at the time it is reached. -/
def QTree.enqueue : QTree → Int → Sites → Option (Sites × Option Int)
  | .SubmitQueue sec mfp, _, st =>
      if (QTree.SubmitQueue sec mfp).isFull st then some (st, none)
      else none
  | .LBQueue _ cs, n, st =>
      if 0 < n then
        if 0 < cs.numOpen st then
          (QTreeList.enqueueEach cs (lbtosub n (cs.numOpen st)) st st).map
            (fun st2 => (st2, none))
        else some (st, none)
      else some (st, none)
  | .OFQueue _ cs, n, st =>
      if 0 < n then
        if 0 < cs.numOpen st then
          (QTreeList.enqueueOrdered cs n st).map (fun st2 => (st2, none))
        else some (st, none)
      else some (st, none)
/-- The loop `for ch in openchildren: ch.enqueue(tosub)` of LBQueue:
`st0` is the state in which `openchildren` was computed, `cur` the state
threaded through the child calls. -/
def QTreeList.enqueueEach : QTreeList → Int → Sites → Sites → Option Sites
  | .nil, _, _, cur => some cur
  | .cons c rest, tosub, st0, cur =>
      if c.isFull st0 then QTreeList.enqueueEach rest tosub st0 cur
      else (c.enqueue tosub cur).bind
        (fun p => QTreeList.enqueueEach rest tosub st0 p.1)
/-- The loop `for ch in self.children: if not ch.isFull(): ch.enqueue(n)`
of OFQueue, which re-checks fullness as it goes. -/
def QTreeList.enqueueOrdered : QTreeList → Int → Sites → Option Sites
  | .nil, _, cur => some cur
  | .cons c rest, n, cur =>
      if c.isFull cur then QTreeList.enqueueOrdered rest n cur
      else (c.enqueue n cur).bind (fun p => QTreeList.enqueueOrdered rest n p.1)
end

mutual
/-- rebalance(). `some (sites, overflow)` on normal return, `none` when
the call raises (which can only come from a nested enqueue).

SubmitQueue.rebalance (lines 310-329): look the section up in the sites
dict (`KeyError` gives overflow 0); when the site is full and its idle
count exceeds `minfullpending`, set `overflow = idle - minfullpending`,
mutate `site.idle = site.idle - overflow`, and return the overflow.

LBQueue.rebalance (lines 148-160) and OFQueue.rebalance (lines 204-216):
sum the overflows of the children's rebalance calls; if the sum is
positive and the node is not full, re-enqueue the sum and return 0;
otherwise return the sum. -/
def QTree.rebalance : QTree → Sites → Option (Sites × Int)
  | .SubmitQueue sec mfp, st =>
      match sitesLookup st sec with
      | none => some (st, 0)
      | some site =>
          if site.isFull ∧ mfp < site.idle then
            some (sitesUpdate st sec
                    ⟨site.max, site.idle - (site.idle - mfp),
                     site.running, site.complete⟩,
                  site.idle - mfp)
          else some (st, 0)
  | .LBQueue lab cs, st =>
      (QTreeList.rebalanceEach cs st).bind (fun p =>
        if 0 < p.2 ∧ ¬ (QTree.LBQueue lab cs).isFull p.1 then
          ((QTree.LBQueue lab cs).enqueue p.2 p.1).map (fun q => (q.1, 0))
        else some p)
  | .OFQueue lab cs, st =>
      (QTreeList.rebalanceEach cs st).bind (fun p =>
        if 0 < p.2 ∧ ¬ (QTree.OFQueue lab cs).isFull p.1 then
          ((QTree.OFQueue lab cs).enqueue p.2 p.1).map (fun q => (q.1, 0))
        else some p)
/-- The loop `overflow = 0; for ch in children: overflow += ch.rebalance()`. -/
def QTreeList.rebalanceEach : QTreeList → Sites → Option (Sites × Int)
  | .nil, st => some (st, 0)
  | .cons c rest, st =>
      (c.rebalance st).bind (fun p =>
        (QTreeList.rebalanceEach rest p.1).map (fun q => (q.1, p.2 + q.2)))
end

/-- Number of open entries in a list of child-fullness flags: the length
of `openchildren` when the children are abstracted to their isFull()
answers (`false` = open). -/
def openCount (fulls : List Bool) : Nat :=
  (fulls.filter (fun b => !b)).length

/-- The amounts LBQueue.enqueue (lines 105-135) passes to its children,
with each child abstracted to its isFull() flag: for n > 0 with at least
one open child, each open child is given `lbtosub n openCount` and full
children are skipped; otherwise no child receives anything. -/
def lbPlacements (n : Int) (fulls : List Bool) : List Int :=
  if 0 < n then
    if 0 < openCount fulls then
      fulls.map (fun full => if full then 0 else lbtosub n (openCount fulls))
    else fulls.map (fun _ => 0)
  else fulls.map (fun _ => 0)

/-- The amounts OFQueue.enqueue (lines 184-201) passes to its children,
with each child abstracted to its isFull() flag: for n > 0 with at least
one open child, each open child is given the entire n and full children
are skipped; otherwise no child receives anything. -/
def ofPlacements (n : Int) (fulls : List Bool) : List Int :=
  if 0 < n then
    if 0 < openCount fulls then
      fulls.map (fun full => if full then 0 else n)
    else fulls.map (fun _ => 0)
  else fulls.map (fun _ => 0)

/-- TargetInfo (queue.py lines 568-573) restricted to what the fullness
heuristic reads: `isfull` starts as Python None, and the `oldestidle` and
`newestrunning` job records are abstracted to their integer `age` field
(`none` when the record itself is None). -/
structure TargetInfo where
  isfull : Option Bool
  oldestidle : Option Int
  newestrunning : Option Int
deriving DecidableEq, Repr

/-- The body of the per-queue loop of TargetStatus._calc_isfull
(lines 703-722): isfull is set to False; when an oldestidle record
exists, isfull becomes True if its age exceeds 360; then the
newestrunning age is read - if that record is None the subscript raises
and the bare except keeps the value already set, otherwise an age below
120 forces isfull back to False. -/
def calcIsfullFlag (oi : Int) (nr : Option Int) : Bool :=
  let f1 := if 360 < oi then true else false
  match nr with
  | none => f1
  | some b => if b < 120 then false else f1

/-- One iteration of TargetStatus._calc_isfull on a single TargetInfo. -/
def calcIsfullOne (ti : TargetInfo) : TargetInfo :=
  match ti.oldestidle with
  | none => ⟨some false, ti.oldestidle, ti.newestrunning⟩
  | some oi => ⟨some (calcIsfullFlag oi ti.newestrunning), ti.oldestidle, ti.newestrunning⟩

/-- TargetStatus._calc_isfull (lines 703-722) over the whole queuedict,
modelled as an association list from queue label to TargetInfo. -/
def calcIsfull (queuedict : List (String × TargetInfo)) : List (String × TargetInfo) :=
  queuedict.map (fun p => (p.1, calcIsfullOne p.2))

/-- Pointwise comparison of two site records: a site evolves only by its
idle count going down during rebalance, everything else fixed. -/
def siteLE (s2 s : MockSite) : Prop :=
  s2.max = s.max ∧ s2.running = s.running ∧ s2.complete = s.complete ∧
    s2.idle ≤ s.idle

/-- Lift of `siteLE` to optional lookup results: keys present before
stay present, with the site record only losing idle jobs. -/
def optSiteLE : Option MockSite → Option MockSite → Prop
  | none, none => True
  | some s2, some s => siteLE s2 s
  | _, _ => False

/-- The sites dict after a rebalance, compared with before: same key set,
each site with an idle count no larger and all other fields unchanged. -/
def sitesLE (st2 st : Sites) : Prop :=
  ∀ x, optSiteLE (sitesLookup st2 x) (sitesLookup st x)

mutual
/-- A tree is settled in a given sites state when no leaf's rebalance has
anything left to reclaim: every leaf whose site is full has at most
`minfullpending` idle jobs there. -/
def QTree.Settled : QTree → Sites → Prop
  | .LBQueue _ cs, st => QTreeList.SettledL cs st
  | .OFQueue _ cs, st => QTreeList.SettledL cs st
  | .SubmitQueue sec mfp, st =>
      ∀ site, sitesLookup st sec = some site → site.isFull = true →
        site.idle ≤ mfp
/-- All members of a children list are settled. -/
def QTreeList.SettledL : QTreeList → Sites → Prop
  | .nil, _ => True
  | .cons c rest, st => c.Settled st ∧ QTreeList.SettledL rest st
end

/-- A site at capacity (max 5, running 5) holding 2 idle jobs. -/
def siteFullIdle2 : MockSite := ⟨5, 2, 5, 0⟩

/-- A site at capacity (max 5, running 5) holding 12 idle jobs. -/
def siteFullIdle12 : MockSite := ⟨5, 12, 5, 0⟩

/-- Sites state in which leaf subA's target is full. -/
def stLBFull : Sites := [("subA", siteFullIdle2)]

/-- Sites state in which leaf subB's target is full. -/
def stOFFull : Sites := [("subB", siteFullIdle2)]

/-- Sites state of spec scenario D: subC's target full with 12 idle. -/
def stD : Sites := [("subC", siteFullIdle12)]

/-- Scenario D state after rebalance: idle reduced to minfullpending. -/
def stDAfter : Sites := [("subC", siteFullIdle2)]

/-- A load-balance root whose only child leaf subA is full. -/
def lbFullTree : QTree :=
  .LBQueue "lbroot1" (.cons (.SubmitQueue "subA" 2) .nil)

/-- An ordered-fill root whose only child leaf subB is full. -/
def ofFullTree : QTree :=
  .OFQueue "ofnode1" (.cons (.SubmitQueue "subB" 2) .nil)

/-- A load-balance node over the scenario-D leaf, for the rebalance
protocol instances. -/
def lbLeafTreeA : QTree :=
  .LBQueue "lbnode1" (.cons (.SubmitQueue "subC" 2) .nil)

/-- A second load-balance node over the scenario-D leaf, for the
rebalance fixpoint instances. -/
def lbLeafTreeB : QTree :=
  .LBQueue "lbnode2" (.cons (.SubmitQueue "subC" 2) .nil)

/-- A children list is all-full exactly when every member is full. -/
theorem allFull_iff_mem : ∀ (cs : QTreeList) (st : Sites),
    (QTreeList.allFull cs st = true ↔ ∀ c, QTreeList.Mem c cs → c.isFull st = true)
  | .nil, st => by
      simp [QTreeList.allFull, QTreeList.Mem]
  | .cons c rest, st => by
      simp only [QTreeList.allFull, Bool.and_eq_true, allFull_iff_mem rest st]
      constructor
      · rintro ⟨h1, h2⟩ d hd
        cases hd with
        | inl h => rw [h]; exact h1
        | inr h => exact h2 d h
      · intro h
        exact ⟨h c (Or.inl rfl), fun d hd => h d (Or.inr hd)⟩

/-- There are no open children exactly when all children are full. -/
theorem numOpen_eq_zero_iff : ∀ (cs : QTreeList) (st : Sites),
    (cs.numOpen st = 0 ↔ cs.allFull st = true)
  | .nil, st => by simp [QTreeList.numOpen, QTreeList.allFull]
  | .cons c rest, st => by
      simp only [QTreeList.numOpen, QTreeList.allFull, Bool.and_eq_true,
        ← numOpen_eq_zero_iff rest st]
      cases h : c.isFull st <;> simp

/-- The per-open-child quota is positive whenever the request is. -/
theorem lbtosub_pos (n : Int) (k : Nat) (hn : 0 < n) :
    0 < lbtosub n k := by
  unfold lbtosub
  split
  · exact hn
  · split
    · exact one_pos
    · rename_i hne
      have hge : 0 ≤ Int.fdiv n k :=
        Int.fdiv_nonneg (le_of_lt hn) (by exact_mod_cast Nat.zero_le k)
      omega

mutual
/-- In this revision enqueue can never change the sites state: a leaf
either raises in submit or only logs, so every normal return leaves the
dict as it was and yields Python None. -/
theorem enqueue_state : ∀ (t : QTree) (n : Int) (st : Sites) (p : Sites × Option Int),
    t.enqueue n st = some p → p = (st, none)
  | .SubmitQueue sec mfp, n, st, p => by
      intro h
      unfold QTree.enqueue at h
      split at h
      · simp only [Option.some_inj] at h
        exact h.symm
      · cases h
  | .LBQueue lab cs, n, st, p => by
      intro h
      unfold QTree.enqueue at h
      split at h
      · split at h
        · rw [Option.map_eq_some'] at h
          obtain ⟨a, ha, hfa⟩ := h
          have := enqueueEach_state cs _ st st a ha
          rw [← hfa, this]
        · simp only [Option.some_inj] at h
          exact h.symm
      · simp only [Option.some_inj] at h
        exact h.symm
  | .OFQueue lab cs, n, st, p => by
      intro h
      unfold QTree.enqueue at h
      split at h
      · split at h
        · rw [Option.map_eq_some'] at h
          obtain ⟨a, ha, hfa⟩ := h
          have := enqueueOrdered_state cs n st a ha
          rw [← hfa, this]
        · simp only [Option.some_inj] at h
          exact h.symm
      · simp only [Option.some_inj] at h
        exact h.symm

/-- List form of `enqueue_state` for the load-balance loop. -/
theorem enqueueEach_state : ∀ (cs : QTreeList) (tosub : Int) (st0 cur st2 : Sites),
    QTreeList.enqueueEach cs tosub st0 cur = some st2 → st2 = cur
  | .nil, tosub, st0, cur, st2 => by
      intro h
      unfold QTreeList.enqueueEach at h
      simpa using h.symm
  | .cons c rest, tosub, st0, cur, st2 => by
      intro h
      unfold QTreeList.enqueueEach at h
      split at h
      · exact enqueueEach_state rest tosub st0 cur st2 h
      · rw [Option.bind_eq_some] at h
        obtain ⟨p, hp, hrest⟩ := h
        have h1 := enqueue_state c tosub cur p hp
        have h2 := enqueueEach_state rest tosub st0 p.1 st2 hrest
        rw [h2, h1]

/-- List form of `enqueue_state` for the ordered-fill loop. -/
theorem enqueueOrdered_state : ∀ (cs : QTreeList) (n : Int) (cur st2 : Sites),
    QTreeList.enqueueOrdered cs n cur = some st2 → st2 = cur
  | .nil, n, cur, st2 => by
      intro h
      unfold QTreeList.enqueueOrdered at h
      simpa using h.symm
  | .cons c rest, n, cur, st2 => by
      intro h
      unfold QTreeList.enqueueOrdered at h
      split at h
      · exact enqueueOrdered_state rest n cur st2 h
      · rw [Option.bind_eq_some] at h
        obtain ⟨p, hp, hrest⟩ := h
        have h1 := enqueue_state c n cur p hp
        have h2 := enqueueOrdered_state rest n p.1 st2 hrest
        rw [h2, h1]
end

mutual
/-- A positive quota pushed at any node that is not full always ends in
the leaf submit call that is missing its label argument, so the whole
enqueue raises. -/
theorem enqueue_raises : ∀ (t : QTree) (n : Int) (st : Sites),
    t.isFull st = false → 0 < n → t.enqueue n st = none
  | .SubmitQueue sec mfp, n, st => by
      intro hf hn
      unfold QTree.enqueue
      rw [hf]
      simp
  | .LBQueue lab cs, n, st => by
      intro hf hn
      have hall : QTreeList.allFull cs st = false := by
        simpa [QTree.isFull] using hf
      have hno : 0 < cs.numOpen st := by
        rcases Nat.eq_zero_or_pos (cs.numOpen st) with h0 | h0
        · rw [numOpen_eq_zero_iff cs st] at h0
          rw [h0] at hall
          cases hall
        · exact h0
      unfold QTree.enqueue
      rw [if_pos hn, if_pos hno,
        enqueueEach_raises cs (lbtosub n (cs.numOpen st)) st hno
          (lbtosub_pos n (cs.numOpen st) hn)]
      rfl
  | .OFQueue lab cs, n, st => by
      intro hf hn
      have hall : QTreeList.allFull cs st = false := by
        simpa [QTree.isFull] using hf
      have hno : 0 < cs.numOpen st := by
        rcases Nat.eq_zero_or_pos (cs.numOpen st) with h0 | h0
        · rw [numOpen_eq_zero_iff cs st] at h0
          rw [h0] at hall
          cases hall
        · exact h0
      unfold QTree.enqueue
      rw [if_pos hn, if_pos hno, enqueueOrdered_raises cs n st hno hn]
      rfl

/-- The load-balance loop raises as soon as it reaches its first open
child, which it reaches in the unchanged starting state. -/
theorem enqueueEach_raises : ∀ (cs : QTreeList) (tosub : Int) (st0 : Sites),
    0 < cs.numOpen st0 → 0 < tosub →
    QTreeList.enqueueEach cs tosub st0 st0 = none
  | .nil, tosub, st0 => by
      intro hno _
      simp [QTreeList.numOpen] at hno
  | .cons c rest, tosub, st0 => by
      intro hno ht
      unfold QTreeList.enqueueEach
      cases h : c.isFull st0 with
      | true =>
          simp only [if_true]
          have : 0 < rest.numOpen st0 := by
            simpa [QTreeList.numOpen, h] using hno
          exact enqueueEach_raises rest tosub st0 this ht
      | false =>
          simp only [Bool.false_eq_true, if_false]
          rw [enqueue_raises c tosub st0 h ht]
          rfl

/-- The ordered-fill loop raises as soon as it reaches its first open
child. -/
theorem enqueueOrdered_raises : ∀ (cs : QTreeList) (n : Int) (cur : Sites),
    0 < cs.numOpen cur → 0 < n →
    QTreeList.enqueueOrdered cs n cur = none
  | .nil, n, cur => by
      intro hno _
      simp [QTreeList.numOpen] at hno
  | .cons c rest, n, cur => by
      intro hno hn
      unfold QTreeList.enqueueOrdered
      cases h : c.isFull cur with
      | true =>
          simp only [if_true]
          have : 0 < rest.numOpen cur := by
            simpa [QTreeList.numOpen, h] using hno
          exact enqueueOrdered_raises rest n cur this hn
      | false =>
          simp only [Bool.false_eq_true, if_false]
          rw [enqueue_raises c n cur h hn]
          rfl
end

/-- How a lookup reads through an update of one key. -/
theorem sitesLookup_update : ∀ (st : Sites) (sec x : String) (v : MockSite),
    sitesLookup (sitesUpdate st sec v) x =
      if x = sec then (sitesLookup st sec).map (fun _ => v) else sitesLookup st x
  | [], sec, x, v => by
      simp [sitesLookup, sitesUpdate]
  | (k, s) :: rest, sec, x, v => by
      by_cases hks : k = sec
      · subst hks
        by_cases hkx : k = x
        · subst hkx
          simp [sitesUpdate, sitesLookup]
        · have hxk : ¬ x = k := fun h => hkx h.symm
          simp [sitesUpdate, sitesLookup, hkx, hxk]
      · by_cases hkx : k = x
        · subst hkx
          have hxs : ¬ k = sec := hks
          simp [sitesUpdate, sitesLookup, hks]
        · simp [sitesUpdate, sitesLookup, hks, hkx,
            sitesLookup_update rest sec x v]

/-- Reflexivity of the optional site comparison. -/
theorem optSiteLE_refl : ∀ o : Option MockSite, optSiteLE o o := by
  intro o
  cases o <;> simp [optSiteLE, siteLE]

/-- Transitivity of the optional site comparison. -/
theorem optSiteLE_trans : ∀ {a b c : Option MockSite},
    optSiteLE a b → optSiteLE b c → optSiteLE a c := by
  intro a b c h1 h2
  cases a <;> cases b <;> cases c <;>
    simp [optSiteLE, siteLE] at h1 h2 ⊢
  omega

/-- sitesLE is reflexive. -/
theorem sitesLE_refl (st : Sites) : sitesLE st st :=
  fun _ => optSiteLE_refl _

/-- sitesLE is transitive. -/
theorem sitesLE_trans {st1 st2 st3 : Sites}
    (h1 : sitesLE st1 st2) (h2 : sitesLE st2 st3) : sitesLE st1 st3 :=
  fun x => optSiteLE_trans (h1 x) (h2 x)

/-- Replacing one site with a smaller record moves the dict down in the
sitesLE order. -/
theorem sitesLE_update (st : Sites) (sec : String) (s v : MockSite)
    (hs : sitesLookup st sec = some s) (hv : siteLE v s) :
    sitesLE (sitesUpdate st sec v) st := by
  intro x
  rw [sitesLookup_update]
  by_cases hx : x = sec
  · subst hx
    rw [hs, if_pos rfl]
    exact hv
  · rw [if_neg hx]
    exact optSiteLE_refl _

mutual
/-- A normal rebalance never adds a site and only lowers idle counts. -/
theorem rebalance_le : ∀ (t : QTree) (st : Sites) (p : Sites × Int),
    t.rebalance st = some p → sitesLE p.1 st
  | .SubmitQueue sec mfp, st, p => by
      intro h
      unfold QTree.rebalance at h
      split at h
      · simp only [Option.some_inj] at h
        rw [← h]
        exact sitesLE_refl st
      · rename_i site hlook
        split at h
        · rename_i hcond
          simp only [Option.some_inj] at h
          rw [← h]
          refine sitesLE_update st sec site _ hlook ⟨rfl, rfl, rfl, ?_⟩
          show site.idle - (site.idle - mfp) ≤ site.idle
          obtain ⟨-, h2⟩ := hcond
          omega
        · simp only [Option.some_inj] at h
          rw [← h]
          exact sitesLE_refl st
  | .LBQueue lab cs, st, p => by
      intro h
      unfold QTree.rebalance at h
      rw [Option.bind_eq_some] at h
      obtain ⟨q, hq, hf⟩ := h
      have hle := rebalanceEach_le cs st q hq
      split at hf
      · rw [Option.map_eq_some'] at hf
        obtain ⟨r, hr, hrp⟩ := hf
        have hrst := enqueue_state _ _ _ _ hr
        rw [← hrp, hrst]
        exact hle
      · simp only [Option.some_inj] at hf
        rw [← hf]
        exact hle
  | .OFQueue lab cs, st, p => by
      intro h
      unfold QTree.rebalance at h
      rw [Option.bind_eq_some] at h
      obtain ⟨q, hq, hf⟩ := h
      have hle := rebalanceEach_le cs st q hq
      split at hf
      · rw [Option.map_eq_some'] at hf
        obtain ⟨r, hr, hrp⟩ := hf
        have hrst := enqueue_state _ _ _ _ hr
        rw [← hrp, hrst]
        exact hle
      · simp only [Option.some_inj] at hf
        rw [← hf]
        exact hle

/-- List form of `rebalance_le` for the child loop. -/
theorem rebalanceEach_le : ∀ (cs : QTreeList) (st : Sites) (p : Sites × Int),
    QTreeList.rebalanceEach cs st = some p → sitesLE p.1 st
  | .nil, st, p => by
      intro h
      unfold QTreeList.rebalanceEach at h
      simp only [Option.some_inj] at h
      rw [← h]
      exact sitesLE_refl st
  | .cons c rest, st, p => by
      intro h
      unfold QTreeList.rebalanceEach at h
      rw [Option.bind_eq_some] at h
      obtain ⟨p1, hp1, hmap⟩ := h
      rw [Option.map_eq_some'] at hmap
      obtain ⟨q2, hq2, hqp⟩ := hmap
      have h1 := rebalance_le c st p1 hp1
      have h2 := rebalanceEach_le rest p1.1 q2 hq2
      rw [← hqp]
      exact sitesLE_trans h2 h1
end

mutual
/-- The overflow returned by a normal rebalance is never negative. -/
theorem rebalance_nonneg : ∀ (t : QTree) (st : Sites) (p : Sites × Int),
    t.rebalance st = some p → 0 ≤ p.2
  | .SubmitQueue sec mfp, st, p => by
      intro h
      unfold QTree.rebalance at h
      split at h
      · simp only [Option.some_inj] at h
        rw [← h]
      · rename_i site hlook
        split at h
        · rename_i hcond
          simp only [Option.some_inj] at h
          rw [← h]
          show 0 ≤ site.idle - mfp
          obtain ⟨-, h2⟩ := hcond
          omega
        · simp only [Option.some_inj] at h
          rw [← h]
  | .LBQueue lab cs, st, p => by
      intro h
      unfold QTree.rebalance at h
      rw [Option.bind_eq_some] at h
      obtain ⟨q, hq, hf⟩ := h
      split at hf
      · rw [Option.map_eq_some'] at hf
        obtain ⟨r, hr, hrp⟩ := hf
        rw [← hrp]
      · simp only [Option.some_inj] at hf
        rw [← hf]
        exact rebalanceEach_nonneg cs st q hq
  | .OFQueue lab cs, st, p => by
      intro h
      unfold QTree.rebalance at h
      rw [Option.bind_eq_some] at h
      obtain ⟨q, hq, hf⟩ := h
      split at hf
      · rw [Option.map_eq_some'] at hf
        obtain ⟨r, hr, hrp⟩ := hf
        rw [← hrp]
      · simp only [Option.some_inj] at hf
        rw [← hf]
        exact rebalanceEach_nonneg cs st q hq

/-- The summed child overflow is never negative. -/
theorem rebalanceEach_nonneg : ∀ (cs : QTreeList) (st : Sites) (p : Sites × Int),
    QTreeList.rebalanceEach cs st = some p → 0 ≤ p.2
  | .nil, st, p => by
      intro h
      unfold QTreeList.rebalanceEach at h
      simp only [Option.some_inj] at h
      rw [← h]
  | .cons c rest, st, p => by
      intro h
      unfold QTreeList.rebalanceEach at h
      rw [Option.bind_eq_some] at h
      obtain ⟨p1, hp1, hmap⟩ := h
      rw [Option.map_eq_some'] at hmap
      obtain ⟨q2, hq2, hqp⟩ := hmap
      rw [← hqp]
      show 0 ≤ p1.2 + q2.2
      have h1 := rebalance_nonneg c st p1 hp1
      have h2 := rebalanceEach_nonneg rest p1.1 q2 hq2
      omega
end

mutual
/-- Settledness survives losing idle jobs elsewhere: a leaf with nothing
to reclaim still has nothing to reclaim after idle counts only dropped. -/
theorem settled_antitone : ∀ (t : QTree) (st st2 : Sites),
    t.Settled st → sitesLE st2 st → t.Settled st2
  | .SubmitQueue sec mfp, st, st2 => by
      intro h hle
      unfold QTree.Settled at h ⊢
      intro site2 hlook2 hfull2
      have hrel := hle sec
      rw [hlook2] at hrel
      cases hlook : sitesLookup st sec with
      | none =>
          rw [hlook] at hrel
          simp [optSiteLE] at hrel
      | some s =>
          rw [hlook] at hrel
          unfold optSiteLE siteLE at hrel
          obtain ⟨hmax, hrun, hcomp, hidle⟩ := hrel
          have hfull : s.isFull = true := by
            unfold MockSite.isFull at hfull2 ⊢
            rw [← hmax, ← hrun]
            exact hfull2
          have hle2 := h s hlook hfull
          omega
  | .LBQueue lab cs, st, st2 => by
      intro h hle
      unfold QTree.Settled at h ⊢
      exact settledL_antitone cs st st2 h hle
  | .OFQueue lab cs, st, st2 => by
      intro h hle
      unfold QTree.Settled at h ⊢
      exact settledL_antitone cs st st2 h hle

/-- List form of `settled_antitone`. -/
theorem settledL_antitone : ∀ (cs : QTreeList) (st st2 : Sites),
    QTreeList.SettledL cs st → sitesLE st2 st → QTreeList.SettledL cs st2
  | .nil, st, st2 => by
      intro h hle
      unfold QTreeList.SettledL
      trivial
  | .cons c rest, st, st2 => by
      intro h hle
      unfold QTreeList.SettledL at h ⊢
      exact ⟨settled_antitone c st st2 h.1 hle, settledL_antitone rest st st2 h.2 hle⟩
end

mutual
/-- A settled subtree rebalances to overflow 0 without touching anything. -/
theorem settled_rebalance : ∀ (t : QTree) (st : Sites),
    t.Settled st → t.rebalance st = some (st, 0)
  | .SubmitQueue sec mfp, st => by
      intro h
      unfold QTree.Settled at h
      unfold QTree.rebalance
      split
      · rfl
      · rename_i site hlook
        rw [if_neg]
        rintro ⟨hf, hlt⟩
        exact absurd (h site hlook hf) (by omega)
  | .LBQueue lab cs, st => by
      intro h
      unfold QTree.Settled at h
      unfold QTree.rebalance
      rw [settledL_rebalanceEach cs st h]
      simp
  | .OFQueue lab cs, st => by
      intro h
      unfold QTree.Settled at h
      unfold QTree.rebalance
      rw [settledL_rebalanceEach cs st h]
      simp

/-- List form of `settled_rebalance` for the child loop. -/
theorem settledL_rebalanceEach : ∀ (cs : QTreeList) (st : Sites),
    QTreeList.SettledL cs st → QTreeList.rebalanceEach cs st = some (st, 0)
  | .nil, st => by
      intro h
      rfl
  | .cons c rest, st => by
      intro h
      unfold QTreeList.SettledL at h
      unfold QTreeList.rebalanceEach
      rw [settled_rebalance c st h.1]
      simp only [Option.some_bind]
      rw [settledL_rebalanceEach rest st h.2]
      simp
end

mutual
/-- After any rebalance that returns normally, the whole subtree is
settled: every full leaf site it can reach is down to minfullpending. -/
theorem rebalance_settled : ∀ (t : QTree) (st : Sites) (p : Sites × Int),
    t.rebalance st = some p → t.Settled p.1
  | .SubmitQueue sec mfp, st, p => by
      intro h
      unfold QTree.rebalance at h
      split at h
      · rename_i hlook
        simp only [Option.some_inj] at h
        subst h
        show (QTree.SubmitQueue sec mfp).Settled st
        unfold QTree.Settled
        intro site hlk
        rw [hlook] at hlk
        cases hlk
      · rename_i site hlook
        split at h
        · rename_i hcond
          simp only [Option.some_inj] at h
          subst h
          show (QTree.SubmitQueue sec mfp).Settled
            (sitesUpdate st sec
              ⟨site.max, site.idle - (site.idle - mfp), site.running, site.complete⟩)
          unfold QTree.Settled
          intro site2 hlk2 hfull2
          rw [sitesLookup_update, if_pos rfl, hlook, Option.map_some'] at hlk2
          simp only [Option.some_inj] at hlk2
          rw [← hlk2]
          show site.idle - (site.idle - mfp) ≤ mfp
          omega
        · rename_i hcond
          simp only [Option.some_inj] at h
          subst h
          show (QTree.SubmitQueue sec mfp).Settled st
          unfold QTree.Settled
          intro site2 hlk2 hfull2
          rw [hlook] at hlk2
          simp only [Option.some_inj] at hlk2
          subst hlk2
          by_contra hgt
          exact hcond ⟨hfull2, by omega⟩
  | .LBQueue lab cs, st, p => by
      intro h
      unfold QTree.rebalance at h
      rw [Option.bind_eq_some] at h
      obtain ⟨q, hq, hf⟩ := h
      have hsl := rebalanceEach_settledL cs st q hq
      split at hf
      · rename_i hcond
        obtain ⟨hpos, hnf⟩ := hcond
        have hnf2 : (QTree.LBQueue lab cs).isFull q.1 = false := by
          cases hh : (QTree.LBQueue lab cs).isFull q.1
          · rfl
          · exact absurd hh hnf
        rw [enqueue_raises _ _ _ hnf2 hpos] at hf
        simp at hf
      · simp only [Option.some_inj] at hf
        subst hf
        show (QTree.LBQueue lab cs).Settled q.1
        unfold QTree.Settled
        exact hsl
  | .OFQueue lab cs, st, p => by
      intro h
      unfold QTree.rebalance at h
      rw [Option.bind_eq_some] at h
      obtain ⟨q, hq, hf⟩ := h
      have hsl := rebalanceEach_settledL cs st q hq
      split at hf
      · rename_i hcond
        obtain ⟨hpos, hnf⟩ := hcond
        have hnf2 : (QTree.OFQueue lab cs).isFull q.1 = false := by
          cases hh : (QTree.OFQueue lab cs).isFull q.1
          · rfl
          · exact absurd hh hnf
        rw [enqueue_raises _ _ _ hnf2 hpos] at hf
        simp at hf
      · simp only [Option.some_inj] at hf
        subst hf
        show (QTree.OFQueue lab cs).Settled q.1
        unfold QTree.Settled
        exact hsl

/-- List form of `rebalance_settled` for the child loop. -/
theorem rebalanceEach_settledL : ∀ (cs : QTreeList) (st : Sites) (p : Sites × Int),
    QTreeList.rebalanceEach cs st = some p → QTreeList.SettledL cs p.1
  | .nil, st, p => by
      intro h
      unfold QTreeList.rebalanceEach at h
      simp only [Option.some_inj] at h
      subst h
      unfold QTreeList.SettledL
      trivial
  | .cons c rest, st, p => by
      intro h
      unfold QTreeList.rebalanceEach at h
      rw [Option.bind_eq_some] at h
      obtain ⟨p1, hp1, hmap⟩ := h
      rw [Option.map_eq_some'] at hmap
      obtain ⟨q2, hq2, hqp⟩ := hmap
      subst hqp
      show QTreeList.SettledL (QTreeList.cons c rest) q2.1
      unfold QTreeList.SettledL
      constructor
      · exact settled_antitone c p1.1 q2.1 (rebalance_settled c st p1 hp1)
          (rebalanceEach_le rest p1.1 q2 hq2)
      · exact rebalanceEach_settledL rest p1.1 q2 hq2
end

/-- Open-slot count of a fullness-flag list, unfolded over cons. -/
theorem openCount_cons (b : Bool) (fulls : List Bool) :
    openCount (b :: fulls) = (if b then 0 else 1) + openCount fulls := by
  cases b
  · simp [openCount, List.filter_cons]
    omega
  · simp [openCount, List.filter_cons]

/-- Summing a fan-out that gives t to every open slot and 0 to every full
slot yields the open count times t. -/
theorem sum_if_map (t : Int) : ∀ (fulls : List Bool),
    (fulls.map (fun full => if full then 0 else t)).sum
      = (openCount fulls : Int) * t
  | [] => by simp [openCount]
  | b :: fulls => by
      rw [List.map_cons, List.sum_cons, sum_if_map t fulls, openCount_cons]
      cases b
      · simp only [if_neg Bool.false_ne_true]
        push_cast
        ring
      · simp

/-- C1 (amended): with n > 0 and k > 1 open children, LBQueue.enqueue
offers each open child exactly floor(n/k) raised to 1 when the floor is
0, and nothing to full children; the total offered is k * tosub, which
for n >= k equals n - n mod k (within k-1 of n, with each open child
getting at least 1), but for 0 < n < k equals k, exceeding n. -/
theorem lb_placements_amended (n : Int) (fulls : List Bool)
    (hn : 0 < n) (hk : 1 < openCount fulls) :
    (lbPlacements n fulls = fulls.map (fun full => if full then 0
        else if Int.fdiv n (openCount fulls) = 0 then 1
        else Int.fdiv n (openCount fulls)))
  ∧ (lbPlacements n fulls).sum
      = (openCount fulls : Int) * lbtosub n (openCount fulls)
  ∧ ((openCount fulls : Int) ≤ n →
      (lbPlacements n fulls).sum = n - n % (openCount fulls : Int)
      ∧ n - ((openCount fulls : Int) - 1) ≤ (lbPlacements n fulls).sum
      ∧ (lbPlacements n fulls).sum ≤ n
      ∧ 1 ≤ lbtosub n (openCount fulls))
  ∧ (n < (openCount fulls : Int) →
      (lbPlacements n fulls).sum = (openCount fulls : Int)) := by
  have hk0 : 0 < openCount fulls := by omega
  have hlb : lbPlacements n fulls
      = fulls.map (fun full => if full then 0 else lbtosub n (openCount fulls)) := by
    unfold lbPlacements
    rw [if_pos hn, if_pos hk0]
  have htos : lbtosub n (openCount fulls)
      = if Int.fdiv n (openCount fulls) = 0 then 1
        else Int.fdiv n (openCount fulls) := by
    unfold lbtosub
    rw [if_neg (by omega)]
  have hsum : (lbPlacements n fulls).sum
      = (openCount fulls : Int) * lbtosub n (openCount fulls) := by
    rw [hlb, sum_if_map]
  have hkz : (0 : Int) < (openCount fulls : Int) := by exact_mod_cast hk0
  refine ⟨by rw [hlb, htos], hsum, ?_, ?_⟩
  · intro hkn
    have hfd : Int.fdiv n (openCount fulls) = n / (openCount fulls : Int) :=
      Int.fdiv_eq_ediv n (le_of_lt hkz)
    have hone : 1 ≤ n / (openCount fulls : Int) := by
      rw [Int.le_ediv_iff_mul_le hkz, one_mul]
      exact hkn
    have htos2 : lbtosub n (openCount fulls) = n / (openCount fulls : Int) := by
      rw [htos, hfd, if_neg (by omega)]
    have hdm := Int.ediv_add_emod n (openCount fulls : Int)
    have hm0 : 0 ≤ n % (openCount fulls : Int) := Int.emod_nonneg n (by omega)
    have hmk : n % (openCount fulls : Int) < (openCount fulls : Int) :=
      Int.emod_lt_of_pos n hkz
    rw [hsum, htos2]
    refine ⟨by linarith, by linarith, by linarith, by omega⟩
  · intro hnk
    have hfd : Int.fdiv n (openCount fulls) = n / (openCount fulls : Int) :=
      Int.fdiv_eq_ediv n (le_of_lt hkz)
    have hzero : n / (openCount fulls : Int) = 0 :=
      Int.ediv_eq_zero_of_lt (le_of_lt hn) hnk
    have htos1 : lbtosub n (openCount fulls) = 1 := by
      rw [htos, hfd, hzero, if_pos rfl]
    rw [hsum, htos1, mul_one]

/-- Instance of the amended C1 statement at n = 7 over three open
children: each open child is offered 2 and the total 6 is within k-1 of 7. -/
theorem lb_placements_amended_witness :
    lbPlacements 7 [false, false, false] = [2, 2, 2]
    ∧ (lbPlacements 7 [false, false, false]).sum = 7 - 7 % 3 := by
  have h := lb_placements_amended 7 [false, false, false] (by decide) (by decide)
  refine ⟨h.1.trans (by decide), ?_⟩
  have h2 := (h.2.2.1 (by decide)).1
  exact h2.trans (by decide)

/-- Counterexample to C1 as stated: with n = 1 and two open children the
per-child floor of 1 makes the total 2, which exceeds n instead of being
n minus at most k-1. -/
theorem lb_placements_sum_counterexample :
    (lbPlacements 1 [false, false]).sum = 2
    ∧ ¬ ((lbPlacements 1 [false, false]).sum ≤ 1) := by
  decide

/-- C2 (amended): enqueue on an internal node returns Python None, never
an unplaced count: with n = 0, or with every child full, it leaves the
sites state unchanged and raises nothing; the unplaceable quota is only
logged and dropped, not returned. -/
theorem internal_enqueue_amended (lab : String) (cs : QTreeList) (n : Int)
    (st : Sites) :
    (QTreeList.allFull cs st = true →
        (QTree.LBQueue lab cs).enqueue n st = some (st, none)
      ∧ (QTree.OFQueue lab cs).enqueue n st = some (st, none))
  ∧ (n = 0 →
        (QTree.LBQueue lab cs).enqueue n st = some (st, none)
      ∧ (QTree.OFQueue lab cs).enqueue n st = some (st, none)) := by
  constructor
  · intro hall
    have hno : cs.numOpen st = 0 := (numOpen_eq_zero_iff cs st).mpr hall
    constructor
    · unfold QTree.enqueue
      rw [hno]
      simp
    · unfold QTree.enqueue
      rw [hno]
      simp
  · rintro rfl
    constructor
    · unfold QTree.enqueue
      norm_num
    · unfold QTree.enqueue
      norm_num

/-- Instance of the amended C2 statement: a load-balance node over one
full leaf, given 5, keeps the state and returns None. -/
theorem internal_enqueue_amended_witness :
    (QTree.LBQueue "lbroot1"
      (QTreeList.cons (QTree.SubmitQueue "subA" 2) QTreeList.nil)).enqueue 5 stLBFull
      = some (stLBFull, none) :=
  ((internal_enqueue_amended "lbroot1"
      (QTreeList.cons (QTree.SubmitQueue "subA" 2) QTreeList.nil)
      5 stLBFull).1 (by decide)).1

/-- Counterexample to C2 as stated: a load-balance node whose only child
is full, given n = 5, returns Python None rather than the unplaced
quota 5. -/
theorem internal_enqueue_return_counterexample :
    lbFullTree.enqueue 5 stLBFull = some (stLBFull, none)
    ∧ ((none : Option Int) ≠ some 5) := by
  decide

/-- C3 (amended): OFQueue.enqueue offers the entire n to every open child
in declared order and nothing to full children; with no open child it
keeps the state, logs, and returns None rather than n. -/
theorem of_placements_amended (n : Int) (fulls : List Bool) (lab : String)
    (cs : QTreeList) (st : Sites) :
    (0 < n → 0 < openCount fulls →
        ofPlacements n fulls = fulls.map (fun full => if full then 0 else n))
  ∧ (QTreeList.allFull cs st = true →
        (QTree.OFQueue lab cs).enqueue n st = some (st, none)) := by
  constructor
  · intro hn hk
    unfold ofPlacements
    rw [if_pos hn, if_pos hk]
  · intro hall
    have hno : cs.numOpen st = 0 := (numOpen_eq_zero_iff cs st).mpr hall
    unfold QTree.enqueue
    rw [hno]
    simp

/-- Instance of the amended C3 statement: with children [full, open,
open] and n = 5, the open children are each offered all 5; an all-full
ordered-fill node returns None leaving the state alone. -/
theorem of_placements_amended_witness :
    ofPlacements 5 [true, false, false] = [0, 5, 5]
    ∧ ofFullTree.enqueue 7 stOFFull = some (stOFFull, none) := by
  constructor
  · exact ((of_placements_amended 5 [true, false, false] "x" QTreeList.nil []).1
      (by decide) (by decide)).trans (by decide)
  · exact (of_placements_amended 7 [] "ofnode1"
      (QTreeList.cons (QTree.SubmitQueue "subB" 2) QTreeList.nil) stOFFull).2
      (by decide)

/-- Counterexample to C3 as stated: an ordered-fill node with no open
child, given n = 5, returns Python None rather than 5 as overflow. -/
theorem of_enqueue_overflow_counterexample :
    ofFullTree.enqueue 5 stOFFull = some (stOFFull, none)
    ∧ ((none : Option Int) ≠ some 5) := by
  decide

/-- Unfolding of isFull at a load-balance node. -/
theorem isFull_LB (lab : String) (cs : QTreeList) (st : Sites) :
    (QTree.LBQueue lab cs).isFull st = QTreeList.allFull cs st := by
  rw [QTree.isFull]

/-- Unfolding of isFull at an ordered-fill node. -/
theorem isFull_OF (lab : String) (cs : QTreeList) (st : Sites) :
    (QTree.OFQueue lab cs).isFull st = QTreeList.allFull cs st := by
  rw [QTree.isFull]

/-- C4: isFull of an internal node (either policy) is true iff isFull is
true for every child, vacuously true for a childless internal node. -/
theorem internal_isfull_iff_children (lab : String) (cs : QTreeList) (st : Sites) :
    ((QTree.LBQueue lab cs).isFull st = true ↔
        ∀ c, QTreeList.Mem c cs → c.isFull st = true)
  ∧ ((QTree.OFQueue lab cs).isFull st = true ↔
        ∀ c, QTreeList.Mem c cs → c.isFull st = true)
  ∧ (QTree.LBQueue lab QTreeList.nil).isFull st = true
  ∧ (QTree.OFQueue lab QTreeList.nil).isFull st = true := by
  refine ⟨?_, ?_, ?_, ?_⟩
  · rw [isFull_LB]
    exact allFull_iff_mem cs st
  · rw [isFull_OF]
    exact allFull_iff_mem cs st
  · rw [isFull_LB]
    rfl
  · rw [isFull_OF]
    rfl

/-- Instance of C4 at a childless internal node: it reports full. -/
theorem internal_isfull_iff_children_witness :
    (QTree.LBQueue "lbroot1" QTreeList.nil).isFull [] = true :=
  (internal_isfull_iff_children "lbroot1" QTreeList.nil []).2.2.1

/-- C5: on a leaf whose target site is full with idle above
minfullpending, rebalance returns idle - minfullpending and sets the
site's idle count to exactly minfullpending; in every other state
(not full, idle at or below minfullpending, or target unknown) it
returns 0 and changes nothing. -/
theorem submitqueue_rebalance_correct (sec : String) (mfp : Int) (st : Sites) :
    (∀ site, sitesLookup st sec = some site → site.isFull = true →
        mfp < site.idle →
        (QTree.SubmitQueue sec mfp).rebalance st =
          some (sitesUpdate st sec ⟨site.max, mfp, site.running, site.complete⟩,
                site.idle - mfp))
  ∧ (∀ site, sitesLookup st sec = some site →
        ¬ (site.isFull = true ∧ mfp < site.idle) →
        (QTree.SubmitQueue sec mfp).rebalance st = some (st, 0))
  ∧ (sitesLookup st sec = none →
        (QTree.SubmitQueue sec mfp).rebalance st = some (st, 0)) := by
  refine ⟨?_, ?_, ?_⟩
  · intro site hlook hfull hlt
    unfold QTree.rebalance
    split
    · rename_i hnone
      rw [hlook] at hnone
      cases hnone
    · rename_i site2 hlook2
      rw [hlook] at hlook2
      injection hlook2 with hs
      subst hs
      rw [if_pos ⟨hfull, hlt⟩]
      have hidle : site.idle - (site.idle - mfp) = mfp := by omega
      rw [hidle]
  · intro site hlook hncond
    unfold QTree.rebalance
    split
    · rfl
    · rename_i site2 hlook2
      rw [hlook] at hlook2
      injection hlook2 with hs
      subst hs
      rw [if_neg hncond]
  · intro hnone
    unfold QTree.rebalance
    split
    · rfl
    · rename_i site2 hlook2
      rw [hnone] at hlook2
      cases hlook2

/-- Instance of C5 at spec scenario D: a full target with idle 12 and
minfullpending 2 yields overflow 10 and idle reduced to 2. -/
theorem submitqueue_rebalance_correct_witness :
    (QTree.SubmitQueue "subC" 2).rebalance stD = some (stDAfter, 10) := by
  have h := (submitqueue_rebalance_correct "subC" 2 stD).1 siteFullIdle12
    (by decide) (by decide) (by decide)
  exact h.trans (by decide)

/-- C8: SubmitQueue.isFull is true exactly when the target site exists,
is at capacity, and holds at least minfullpending idle jobs; an unknown
target gives false rather than an error. -/
theorem submitqueue_isfull_characterization (sec : String) (mfp : Int)
    (st : Sites) :
    ((QTree.SubmitQueue sec mfp).isFull st = true ↔
        ∃ site, sitesLookup st sec = some site ∧ site.max ≤ site.running
          ∧ mfp ≤ site.idle)
  ∧ (sitesLookup st sec = none →
        (QTree.SubmitQueue sec mfp).isFull st = false) := by
  constructor
  · constructor
    · intro h
      unfold QTree.isFull at h
      split at h
      · cases h
      · rename_i site hlook
        rw [Bool.and_eq_true, decide_eq_true_iff] at h
        refine ⟨site, hlook, ?_, h.2⟩
        have hfull := h.1
        unfold MockSite.isFull at hfull
        exact of_decide_eq_true hfull
    · rintro ⟨site, hlook, hmr, hmi⟩
      unfold QTree.isFull
      split
      · rename_i hnone
        rw [hlook] at hnone
        cases hnone
      · rename_i site2 hlook2
        rw [hlook] at hlook2
        injection hlook2 with hs
        subst hs
        rw [Bool.and_eq_true, decide_eq_true_iff]
        refine ⟨?_, hmi⟩
        unfold MockSite.isFull
        exact decide_eq_true hmr
  · intro hnone
    unfold QTree.isFull
    split
    · rfl
    · rename_i site2 hlook2
      rw [hnone] at hlook2
      cases hlook2

/-- Instance of C8: an unknown target reports not-full; a known full
target with enough pending reports full. -/
theorem submitqueue_isfull_characterization_witness :
    (QTree.SubmitQueue "subX" 2).isFull [] = false
    ∧ (QTree.SubmitQueue "subC" 2).isFull stD = true := by
  constructor
  · exact (submitqueue_isfull_characterization "subX" 2 []).2 rfl
  · exact (submitqueue_isfull_characterization "subC" 2 stD).1.mpr
      ⟨siteFullIdle12, by decide, by decide, by decide⟩

/-- C9 evaluation at the failing input: enqueue(5) on a leaf whose target
is unknown (hence not full) raises in the submit call, whose label
argument is missing at the call site, instead of forwarding 5 keyed by
the leaf's label and returning 0; on a full leaf nothing is submitted and
Python None is returned, not n. -/
theorem submitqueue_enqueue_bug_eval :
    (QTree.SubmitQueue "subA" 2).enqueue 5 [] = none
    ∧ (QTree.SubmitQueue "subA" 2).enqueue 5 stLBFull = some (stLBFull, none) := by
  decide

/-- C6: an internal node's rebalance runs rebalance on every child in
order and sums the returned overflows (last conjunct); if the sum is
positive and the node is not full at that point it re-enqueues the sum
through its own placement policy, reporting 0 on the enqueue's normal
return; otherwise it propagates the sum to its caller. -/
theorem internal_rebalance_protocol (lab : String) (cs : QTreeList)
    (st st2 : Sites) (s : Int)
    (h : QTreeList.rebalanceEach cs st = some (st2, s)) :
    ((s ≤ 0 ∨ (QTree.LBQueue lab cs).isFull st2 = true) →
        (QTree.LBQueue lab cs).rebalance st = some (st2, s))
  ∧ (0 < s → (QTree.LBQueue lab cs).isFull st2 = false →
        (QTree.LBQueue lab cs).rebalance st =
          ((QTree.LBQueue lab cs).enqueue s st2).map (fun q => (q.1, 0)))
  ∧ ((s ≤ 0 ∨ (QTree.OFQueue lab cs).isFull st2 = true) →
        (QTree.OFQueue lab cs).rebalance st = some (st2, s))
  ∧ (0 < s → (QTree.OFQueue lab cs).isFull st2 = false →
        (QTree.OFQueue lab cs).rebalance st =
          ((QTree.OFQueue lab cs).enqueue s st2).map (fun q => (q.1, 0)))
  ∧ (∀ (c : QTree) (rest : QTreeList) (st3 : Sites),
        QTreeList.rebalanceEach (QTreeList.cons c rest) st3 =
          (c.rebalance st3).bind (fun p =>
            (QTreeList.rebalanceEach rest p.1).map
              (fun q => (q.1, p.2 + q.2)))) := by
  refine ⟨?_, ?_, ?_, ?_, ?_⟩
  · intro hcase
    unfold QTree.rebalance
    rw [h, Option.some_bind]
    split
    · rename_i hcond
      obtain ⟨hpos, hnf⟩ := hcond
      exfalso
      have hpos2 : 0 < s := hpos
      rcases hcase with hle | hfull
      · omega
      · exact hnf hfull
    · rfl
  · intro hpos hnff
    unfold QTree.rebalance
    rw [h, Option.some_bind]
    split
    · rfl
    · rename_i hcond
      exfalso
      apply hcond
      refine ⟨hpos, ?_⟩
      intro hh
      have hh2 : (QTree.LBQueue lab cs).isFull st2 = true := hh
      rw [hnff] at hh2
      cases hh2
  · intro hcase
    unfold QTree.rebalance
    rw [h, Option.some_bind]
    split
    · rename_i hcond
      obtain ⟨hpos, hnf⟩ := hcond
      exfalso
      have hpos2 : 0 < s := hpos
      rcases hcase with hle | hfull
      · omega
      · exact hnf hfull
    · rfl
  · intro hpos hnff
    unfold QTree.rebalance
    rw [h, Option.some_bind]
    split
    · rfl
    · rename_i hcond
      exfalso
      apply hcond
      refine ⟨hpos, ?_⟩
      intro hh
      have hh2 : (QTree.OFQueue lab cs).isFull st2 = true := hh
      rw [hnff] at hh2
      cases hh2
  · intro c rest st3
    rfl

/-- Instance of C6: a load-balance node over the scenario-D leaf collects
overflow 10, finds itself full, and propagates 10 to its caller. -/
theorem internal_rebalance_protocol_witness :
    lbLeafTreeA.rebalance stD = some (stDAfter, 10) :=
  (internal_rebalance_protocol "lbnode1"
      (QTreeList.cons (QTree.SubmitQueue "subC" 2) QTreeList.nil)
      stD stDAfter 10 (by decide)).1 (Or.inr (by decide))

/-- C7: a rebalance that returns normally reports a non-negative
overflow, and a second rebalance from the state it left behind returns 0
without further change. -/
theorem rebalance_nonneg_and_fixpoint (t : QTree) (st st2 : Sites) (r : Int)
    (h : t.rebalance st = some (st2, r)) :
    0 ≤ r ∧ t.rebalance st2 = some (st2, 0) :=
  ⟨rebalance_nonneg t st (st2, r) h,
   settled_rebalance t st2 (rebalance_settled t st (st2, r) h)⟩

/-- Instance of C7: the first rebalance of a tree over the scenario-D
leaf returns overflow 10 and the second returns 0 with no change. -/
theorem rebalance_nonneg_and_fixpoint_witness :
    0 ≤ (10 : Int) ∧ lbLeafTreeB.rebalance stDAfter = some (stDAfter, 0) :=
  rebalance_nonneg_and_fixpoint lbLeafTreeB stD stDAfter 10 (by decide)

/-- C10: the per-label congestion heuristic: isfull is set to false by
default; an oldestidle record aged above 360 makes it true; a
newestrunning record aged below 120 overrides it back to false; and
_calc_isfull applies this to every label of the queuedict. -/
theorem congestion_isfull_heuristic (ti : TargetInfo)
    (qd : List (String × TargetInfo)) :
    (calcIsfull qd = qd.map (fun p => (p.1, calcIsfullOne p.2)))
  ∧ (ti.oldestidle = none → (calcIsfullOne ti).isfull = some false)
  ∧ (∀ a, ti.oldestidle = some a → 360 < a → ti.newestrunning = none →
      (calcIsfullOne ti).isfull = some true)
  ∧ (∀ a b, ti.oldestidle = some a → ti.newestrunning = some b → b < 120 →
      (calcIsfullOne ti).isfull = some false)
  ∧ (∀ a b, ti.oldestidle = some a → 360 < a → ti.newestrunning = some b →
      120 ≤ b → (calcIsfullOne ti).isfull = some true)
  ∧ (∀ a, ti.oldestidle = some a → a ≤ 360 →
      (∀ b, ti.newestrunning = some b → 120 ≤ b) →
      (calcIsfullOne ti).isfull = some false) := by
  obtain ⟨isf, oi, nr⟩ := ti
  refine ⟨rfl, ?_, ?_, ?_, ?_, ?_⟩
  · intro h
    cases h
    rfl
  · intro a ha hgt hnr
    cases ha
    cases hnr
    simp [calcIsfullOne, calcIsfullFlag, hgt]
  · intro a b ha hb hlt
    cases ha
    cases hb
    simp [calcIsfullOne, calcIsfullFlag, hlt]
  · intro a b ha hgt hb hge
    cases ha
    cases hb
    simp only [calcIsfullOne, calcIsfullFlag]
    rw [if_neg (by omega), if_pos hgt]
  · intro a ha hle hnb
    cases ha
    cases nr with
    | none => simp [calcIsfullOne, calcIsfullFlag, show ¬ 360 < a by omega]
    | some b =>
        have hb := hnb b rfl
        simp [calcIsfullOne, calcIsfullFlag, show ¬ 360 < a by omega,
          show ¬ b < 120 by omega]

/-- Instance of C10 at spec scenario E: one idle record aged 400 and no
running record yields isfull true; adding a running record aged 30 flips
it to false. -/
theorem congestion_isfull_heuristic_witness :
    (calcIsfullOne ⟨none, some 400, none⟩).isfull = some true
    ∧ (calcIsfullOne ⟨none, some 400, some 30⟩).isfull = some false := by
  constructor
  · exact (congestion_isfull_heuristic ⟨none, some 400, none⟩ []).2.2.1 400
      rfl (by norm_num) rfl
  · exact (congestion_isfull_heuristic ⟨none, some 400, some 30⟩ []).2.2.2.1 400 30
      rfl rfl (by norm_num)
